import Mathlib

/-!
Verification development for the `dmt` path-expression core
(`src/value.rs`, `src/selector.rs`, and the matcher-chain evaluation
described by the design document and invoked from `src/main.rs`).

Shallow embedding conventions:
* `Value::Map(HashMap<String, Value>)` is embedded as an association list
  `List (String × Value)`; a `HashMap` has unique keys and unordered
  iteration, and the only operation the core performs on it is keyed
  lookup (`m.get(&key)`), embedded as `List.lookup` (first match, which
  coincides with `HashMap::get` on unique-key lists).
* `Value::Int(i64)` is embedded as `Int`; the core never performs
  arithmetic on it (values are only cloned and compared).
* `Value::Float(f64)` is embedded as an opaque bit pattern (`Nat`);
  IEEE-754 behaviour is irrelevant here because floats are only cloned,
  never compared or computed with, by any selector/matcher operation.
* Iterators (`SelectorResult = Box<dyn Iterator<Item = Value>>`) are
  embedded by the list of values they yield, in order.  Laziness is a
  resource property outside the extensional embedding.
* `usize` is the 64-bit unsigned width of the reference target;
  `str::parse::<usize>` overflow is an explicit `< 2 ^ 64` test on the
  exact `Nat` value of the digit run.
* nom's `IResult<&str, T>` is embedded as `Except String (List Char × T)`
  over the remaining input.  nom's default error type records only an
  `ErrorKind` (custom messages handed to `map_res` closures are
  discarded by nom), so errors are embedded by the `ErrorKind` name.
-/

/-- The `Value` enum from `src/value.rs`. -/
inductive Value where
  | unit : Value
  | int (n : Int) : Value
  | float (bits : Nat) : Value
  | bool (b : Bool) : Value
  | str (s : String) : Value
  | map (m : List (String × Value)) : Value
  | list (l : List Value) : Value
deriving Repr

/-- The tuple struct `NameSelector(String)` from `src/selector.rs`. -/
structure NameSelector where
  name : String
deriving Repr, DecidableEq

/-- The tuple struct `IndexSelector(usize)` from `src/selector.rs`. -/
structure IndexSelector where
  idx : Nat
deriving Repr, DecidableEq

/-- `NameSelector::try_match`: on a `Map` containing the key, yield the
single bound child; on a `Map` lacking the key or on any other variant,
yield nothing.  The `Box<dyn Iterator<Item = Value>>` result is embedded
as the list of yielded values; the item type `Value` (not a `Result`)
means no error can be produced. -/
def NameSelector.tryMatch (s : NameSelector) (v : Value) : List Value :=
  match v with
  | .map m =>
    match m.lookup s.name with
    | some child => [child]
    | none => []
  | _ => []

/-- `IndexSelector::try_match`: on a `List` with the index in range,
yield the single element at that position; otherwise yield nothing. -/
def IndexSelector.tryMatch (s : IndexSelector) (v : Value) : List Value :=
  match v with
  | .list ls =>
    if h : s.idx < ls.length then [ls.get ⟨s.idx, h⟩] else []
  | _ => []

/-- The `UnionSelector` enum from `src/selector.rs`. -/
inductive UnionSelector where
  | name (s : NameSelector) : UnionSelector
  | index (s : IndexSelector) : UnionSelector
deriving Repr, DecidableEq

/-- `UnionSelector::try_match`: dispatch to the wrapped selector. -/
def UnionSelector.tryMatch (u : UnionSelector) (v : Value) : List Value :=
  match u with
  | .name s => s.tryMatch v
  | .index s => s.tryMatch v

/-- The `Selector` enum from `src/selector.rs`: a hand-rolled linked
chain, `Nil` or a `Node` holding one step and the boxed rest. -/
inductive Selector where
  | nil : Selector
  | node (s : UnionSelector) (next : Selector) : Selector
deriving Repr, DecidableEq

/-- `Selector::from_vec`: fold the vector from the right, prepending
each step, so the list order becomes the chain order. -/
def Selector.from_vec (sels : List UnionSelector) : Selector :=
  sels.foldr (fun u acc => Selector.node u acc) Selector.nil

/-- `Selector::try_match`: `Nil` yields the current value itself as the
single result; `Node(sel, next)` flat-maps the rest of the chain over
every value the head step yields. -/
def Selector.tryMatch : Selector → Value → List Value
  | .nil, v => [v]
  | .node s next, v => (s.tryMatch v).flatMap (fun child => next.tryMatch child)

/-- Result type of the embedded nom parsers: `IResult<&str, T>`,
remaining input plus parsed value on success, an `ErrorKind` name on
failure (nom's default error type; `map_res` closure messages are
dropped by nom and replaced by the `MapRes` kind). -/
abbrev PResult (α : Type) : Type := Except String (List Char × α)

/-- Decimal value of a digit run, most-significant digit first, as
computed by `str::parse::<usize>` before its width check. -/
def decValue (l : List Char) : Nat :=
  l.foldl (fun a c => a * 10 + (c.toNat - 48)) 0

/-- `NameSelector::parse`: `map_res(alphanumeric1, check)`.
`alphanumeric1` consumes the maximal run of ASCII alphanumeric
characters (nom's `AsChar::is_alphanum` on `char` is ASCII-only) and
fails on an empty run; the `map_res` closure then accepts the run only
when its first byte is ASCII alphabetic, otherwise failing with the
source message "name of field must starts with an alphabet.", which
nom's `map_res` discards in favour of the `MapRes` error kind.  The
closure's `.unwrap()` on the first byte is modelled separately by
`NameSelector.parseP` below. -/
def NameSelector.parse (input : List Char) : PResult NameSelector :=
  match input.takeWhile Char.isAlphanum with
  | [] => .error "AlphaNumeric"
  | c :: rest2 =>
    if c.isAlpha then
      .ok (input.dropWhile Char.isAlphanum, ⟨(c :: rest2).asString⟩)
    else .error "MapRes"

/-- `IndexSelector::parse`: `delimited(tag("["), map_res(digit1,
parse::<usize>), tag("]"))`.  `digit1` consumes the maximal run of
ASCII decimal digits and fails on an empty run; `str::parse::<usize>`
yields the decimal value of the run unless it overflows the 64-bit
unsigned width, in which case `map_res` fails. -/
def IndexSelector.parse (input : List Char) : PResult IndexSelector :=
  match input with
  | '[' :: afterOpen =>
    match afterOpen.takeWhile Char.isDigit with
    | [] => .error "Digit"
    | c :: ds =>
      if decValue (c :: ds) < 2 ^ 64 then
        match afterOpen.dropWhile Char.isDigit with
        | ']' :: afterClose => .ok (afterClose, ⟨decValue (c :: ds)⟩)
        | _ => .error "Tag"
      else .error "MapRes"
  | _ => .error "Tag"

/-- `UnionSelector::parse`: `alt((name, index))` — try `NameSelector`
first; on its (recoverable) failure try `IndexSelector`. -/
def UnionSelector.parse (input : List Char) : PResult UnionSelector :=
  match NameSelector.parse input with
  | .ok (rest, s) => .ok (rest, .name s)
  | .error _ =>
    match IndexSelector.parse input with
    | .ok (rest, s) => .ok (rest, .index s)
    | .error e => .error e

/-- Loop of nom's `separated_list1(tag("."), UnionSelector::parse)`
after the first element: while the input starts with the separator `.`
and a further step parses after it, accumulate that step; on the first
failure stop, backtracking to the input as it stood before the
separator, and return it with the steps collected so far.  (nom's
infinite-loop guard never fires here because `tag(".")` always consumes
a character.)  The `fuel` argument only bounds the number of iterations
so the recursion is structural; `Selector.parse` passes the input
length, which is always enough (`selLoop_fuel_irrelevant`) because
every accepted separator-plus-step consumes at least two characters. -/
def selLoop (fuel : Nat) (cur : List Char) (acc : List UnionSelector) :
    List Char × List UnionSelector :=
  match fuel with
  | 0 => (cur, acc)
  | fuel + 1 =>
    match cur with
    | [] => (cur, acc)
    | c :: tl =>
      if c = '.' then
        match UnionSelector.parse tl with
        | .ok (rest, s) => selLoop fuel rest (acc ++ [s])
        | .error _ => (cur, acc)
      else (cur, acc)

/-- `Selector::parse`: `map(separated_list1(tag("."),
UnionSelector::parse), Selector::from_vec)` — at least one step, then
the separator loop, then assemble the chain. -/
def Selector.parse (input : List Char) : PResult Selector :=
  match UnionSelector.parse input with
  | .error e => .error e
  | .ok (rest, s) =>
    .ok ((selLoop rest.length rest [s]).1,
         Selector.from_vec (selLoop rest.length rest [s]).2)

/-- Modelled from the spec: the matcher-chain step application of §4.2
of the design document.  The matcher dialect's own source file is not
under `src/` — only its caller appears there (`src/main.rs` invokes
`MatcherChain::parse` and `try_match`) — so the per-step behaviour and
the error messages are taken from the specification's words: a name
step requires a `Map` and looks up the key; an index step requires a
`List` and checks the bound. -/
def matchStep : UnionSelector → Value → Except String Value
  | .name n, .map m =>
    match m.lookup n.name with
    | some child => .ok child
    | none => .error ("map does not contain key \x27" ++ n.name ++ "\x27")
  | .name _, _ => .error "value is not a map"
  | .index i, .list ls =>
    if h : i.idx < ls.length then .ok (ls.get ⟨i.idx, h⟩)
    else .error ("index out of range: " ++ Nat.repr i.idx)
  | .index _, _ => .error "value is not a list"

/-- Modelled from the spec: matcher-chain evaluation (§4.2 of the
design document; source file not under `src/`) — fold the steps
left-to-right over the single current value, short-circuiting on the
first error; success yields the single final value. -/
def matcherRun (steps : List UnionSelector) (v : Value) : Except String Value :=
  match steps with
  | [] => .ok v
  | s :: rest =>
    match matchStep s v with
    | .ok v2 => matcherRun rest v2
    | .error e => .error e

/-- Panic-explicit model of `NameSelector::parse`, with `none` standing
for a panic.  The one potential panic in the selector parser is the
`.unwrap()` of `s.bytes().nth(0)` inside the `map_res` closure, where
`s` is the run matched by `alphanumeric1`; it is modelled by matching
on the run's `head?` after the (separate) empty-run check that
`alphanumeric1` performs. -/
def NameSelector.parseP (input : List Char) : Option (PResult NameSelector) :=
  if (input.takeWhile Char.isAlphanum).isEmpty then
    some (.error "AlphaNumeric")
  else
    match (input.takeWhile Char.isAlphanum).head? with
    | none => none
    | some c =>
      if c.isAlpha then
        some (.ok (input.dropWhile Char.isAlphanum,
                   ⟨(input.takeWhile Char.isAlphanum).asString⟩))
      else some (.error "MapRes")

/-- Panic-explicit model of `IndexSelector::try_match`, with `none`
standing for a panic.  The one potential panic in selector evaluation
is the direct indexing `ls[self.0]`, modelled by the partial lookup
`ls[self.0]?`; the source reaches it only under the guard
`self.0 < ls.len()`. -/
def IndexSelector.tryMatchP (s : IndexSelector) (v : Value) : Option (List Value) :=
  match v with
  | .list ls =>
    if s.idx < ls.length then
      match ls[s.idx]? with
      | some x => some [x]
      | none => none
    else some []
  | _ => some []

/-- ASCII character of the decimal digit `n % 10`. -/
def decDigit (n : Nat) : Char := Char.ofNat (48 + n % 10)

/-- Digits of `n` in base 10, most significant first, prepended to
`acc`; `fuel` only bounds the recursion depth (any `fuel ≥ n` yields
all digits, see `natDecimalAux_spec`). -/
def natDecimalAux (fuel n : Nat) (acc : List Char) : List Char :=
  match fuel with
  | 0 => acc
  | fuel + 1 =>
    if n = 0 then acc
    else natDecimalAux fuel (n / 10) (decDigit n :: acc)

/-- Decimal rendering `str(n)` of a natural number. -/
def natDecimal (n : Nat) : List Char :=
  if n = 0 then ['0'] else natDecimalAux n n []

theorem length_dropWhile_le (p : Char → Bool) (l : List Char) :
    (l.dropWhile p).length ≤ l.length := by
  induction l with
  | nil => simp [List.dropWhile]
  | cons c tl ih =>
    by_cases h : p c
    · simp only [List.dropWhile_cons_of_pos h]
      exact Nat.le_trans ih (Nat.le_succ _)
    · simp [List.dropWhile_cons_of_neg h]

/-- A successful `NameSelector::parse` consumes at least one character:
the remainder is the input with its non-empty alphanumeric run
removed. -/
theorem nameSel_parse_length_lt {l rest : List Char} {s : NameSelector}
    (h : NameSelector.parse l = .ok (rest, s)) : rest.length < l.length := by
  unfold NameSelector.parse at h
  split at h
  case h_1 => exact absurd h (by simp)
  case h_2 c rest2 hrun =>
    split at h
    · simp only [Except.ok.injEq, Prod.mk.injEq] at h
      obtain ⟨hrest, _⟩ := h
      subst hrest
      have hlen := congrArg List.length
        (List.takeWhile_append_dropWhile (p := Char.isAlphanum) (l := l))
      rw [hrun] at hlen
      simp only [List.length_append, List.length_cons] at hlen
      omega
    · exact absurd h (by simp)

/-- A successful `IndexSelector::parse` consumes at least one
character. -/
theorem indexSel_parse_length_lt {l rest : List Char} {s : IndexSelector}
    (h : IndexSelector.parse l = .ok (rest, s)) : rest.length < l.length := by
  unfold IndexSelector.parse at h
  split at h
  case h_2 => exact absurd h (by simp)
  case h_1 afterOpen =>
    split at h
    case h_1 => exact absurd h (by simp)
    case h_2 c ds hrun =>
      split at h
      · split at h
        case h_1 afterClose hdrop =>
          simp only [Except.ok.injEq, Prod.mk.injEq] at h
          obtain ⟨hrest, _⟩ := h
          subst hrest
          have h1 : afterClose.length < (afterOpen.dropWhile Char.isDigit).length := by
            rw [hdrop]; simp
          have h2 := length_dropWhile_le Char.isDigit afterOpen
          simp only [List.length_cons]
          omega
        case h_2 => exact absurd h (by simp)
      · exact absurd h (by simp)

/-- A successful `UnionSelector::parse` consumes at least one
character. -/
theorem unionSel_parse_length_lt {l rest : List Char} {s : UnionSelector}
    (h : UnionSelector.parse l = .ok (rest, s)) : rest.length < l.length := by
  unfold UnionSelector.parse at h
  split at h
  case h_1 r v heq =>
    simp only [Except.ok.injEq, Prod.mk.injEq] at h
    obtain ⟨hrest, _⟩ := h
    subst hrest
    exact nameSel_parse_length_lt heq
  case h_2 =>
    split at h
    case h_1 r v heq =>
      simp only [Except.ok.injEq, Prod.mk.injEq] at h
      obtain ⟨hrest, _⟩ := h
      subst hrest
      exact indexSel_parse_length_lt heq
    case h_2 => exact absurd h (by simp)

/-- With at least the current input length as fuel, `selLoop` never
exhausts its fuel: every sufficient fuel amount yields the same
result. -/
theorem selLoop_fuel_irrelevant (fuel fuel2 : Nat) (cur : List Char)
    (acc : List UnionSelector) (h : cur.length ≤ fuel) (h2 : cur.length ≤ fuel2) :
    selLoop fuel cur acc = selLoop fuel2 cur acc := by
  induction fuel using Nat.strong_induction_on generalizing fuel2 cur acc with
  | _ fuel ih =>
    match fuel, fuel2 with
    | 0, 0 => rfl
    | 0, f2 + 1 =>
      have hc : cur = [] := List.length_eq_zero.mp (Nat.le_zero.mp h)
      subst hc; rfl
    | f + 1, 0 =>
      have hc : cur = [] := List.length_eq_zero.mp (Nat.le_zero.mp h2)
      subst hc; rfl
    | f + 1, f2 + 1 =>
      cases cur with
      | nil => rfl
      | cons c tl =>
        simp only [selLoop]
        by_cases hc : c = '.'
        · simp only [if_pos hc]
          cases hp : UnionSelector.parse tl with
          | ok rs =>
            obtain ⟨rest, s⟩ := rs
            have hlt := unionSel_parse_length_lt hp
            simp only [List.length_cons] at h h2
            exact ih f (Nat.lt_succ_self f) f2 rest (acc ++ [s]) (by omega) (by omega)
          | error e => rfl
        · simp only [if_neg hc]

/-- An ASCII digit is not an ASCII letter (the ranges are disjoint). -/
theorem isDigit_not_isAlpha {c : Char} (h : c.isDigit = true) : c.isAlpha = false := by
  simp only [Char.isDigit, Bool.and_eq_true, decide_eq_true_eq] at h
  have h2 : c.val.toNat ≤ 57 := h.2
  simp only [Char.isAlpha, Char.isUpper, Char.isLower, Bool.or_eq_false_iff,
    Bool.and_eq_false_iff, decide_eq_false_iff_not]
  refine ⟨Or.inl fun hle => ?_, Or.inl fun hle => ?_⟩
  · have h3 : (65 : Nat) ≤ c.val.toNat := hle
    omega
  · have h3 : (97 : Nat) ≤ c.val.toNat := hle
    omega

theorem isDigit_isAlphanum {c : Char} (h : c.isDigit = true) : c.isAlphanum = true := by
  simp [Char.isAlphanum, h]

theorem decDigit_toNat (n : Nat) : (decDigit n).toNat = 48 + n % 10 := by
  have h : n % 10 < 10 := Nat.mod_lt _ (by omega)
  unfold decDigit
  interval_cases hm : n % 10 <;> simp_all

theorem decDigit_isDigit (n : Nat) : (decDigit n).isDigit = true := by
  have h : n % 10 < 10 := Nat.mod_lt _ (by omega)
  unfold decDigit
  interval_cases hm : n % 10 <;> decide

/-- Any fuel of at least `n` yields the same digits, prepended to the
accumulator. -/
theorem natDecimalAux_spec (n : Nat) : ∀ (fuel : Nat) (acc : List Char),
    n ≤ fuel → natDecimalAux fuel n acc = natDecimalAux n n [] ++ acc := by
  induction n using Nat.strong_induction_on with
  | _ n ih =>
    intro fuel acc hfuel
    match n, fuel with
    | 0, 0 => rfl
    | 0, f + 1 => simp [natDecimalAux]
    | n + 1, f + 1 =>
      have hq : (n + 1) / 10 < n + 1 := Nat.div_lt_self (Nat.succ_pos n) (by omega)
      have hL : natDecimalAux (f + 1) (n + 1) acc =
          natDecimalAux f ((n + 1) / 10) (decDigit (n + 1) :: acc) := by
        simp [natDecimalAux]
      have hR : natDecimalAux (n + 1) (n + 1) [] =
          natDecimalAux n ((n + 1) / 10) [decDigit (n + 1)] := by
        simp [natDecimalAux]
      rw [hL, hR]
      rw [ih ((n + 1) / 10) hq f (decDigit (n + 1) :: acc) (by omega)]
      rw [ih ((n + 1) / 10) hq n [decDigit (n + 1)] (by omega)]
      simp

/-- Peel the least significant digit off the rendering of a positive
number. -/
theorem natDecimal_step (n : Nat) (h : n ≠ 0) :
    natDecimalAux n n [] = natDecimalAux (n / 10) (n / 10) [] ++ [decDigit n] := by
  match n with
  | n + 1 =>
    have hq : (n + 1) / 10 < n + 1 := Nat.div_lt_self (Nat.succ_pos n) (by omega)
    have hR : natDecimalAux (n + 1) (n + 1) [] =
        natDecimalAux n ((n + 1) / 10) [decDigit (n + 1)] := by
      simp [natDecimalAux]
    rw [hR, natDecimalAux_spec ((n + 1) / 10) n [decDigit (n + 1)] (by omega)]

/-- Every rendered character is an ASCII digit. -/
theorem natDecimalAux_digits (n : Nat) :
    ∀ c ∈ natDecimalAux n n [], c.isDigit = true := by
  induction n using Nat.strong_induction_on with
  | _ n ih =>
    match n with
    | 0 => intro c hc; simp [natDecimalAux] at hc
    | n + 1 =>
      intro c hc
      have hq : (n + 1) / 10 < n + 1 := Nat.div_lt_self (Nat.succ_pos n) (by omega)
      rw [natDecimal_step (n + 1) (by omega)] at hc
      rcases List.mem_append.mp hc with h1 | h2
      · exact ih _ hq c h1
      · simp only [List.mem_singleton] at h2
        subst h2
        exact decDigit_isDigit (n + 1)

/-- Folding the decimal digits of `n` onto an arbitrary prefix value
`a` multiplies `a` by the corresponding power of ten and adds `n`. -/
theorem natDecimalAux_foldl (n : Nat) : ∀ a : Nat,
    (natDecimalAux n n []).foldl (fun a c => a * 10 + (c.toNat - 48)) a =
      a * 10 ^ (natDecimalAux n n []).length + n := by
  induction n using Nat.strong_induction_on with
  | _ n ih =>
    intro a
    match n with
    | 0 => simp [natDecimalAux]
    | n + 1 =>
      have hq : (n + 1) / 10 < n + 1 := Nat.div_lt_self (Nat.succ_pos n) (by omega)
      rw [natDecimal_step (n + 1) (by omega), List.foldl_append, List.length_append,
        ih _ hq a]
      simp only [List.foldl_cons, List.foldl_nil, List.length_cons, List.length_nil]
      rw [decDigit_toNat]
      have hd : 48 + (n + 1) % 10 - 48 = (n + 1) % 10 := by omega
      rw [hd]
      have h10 : (n + 1) / 10 * 10 + (n + 1) % 10 = n + 1 := by omega
      calc (a * 10 ^ (natDecimalAux ((n + 1) / 10) ((n + 1) / 10) []).length
              + (n + 1) / 10) * 10 + (n + 1) % 10
          = a * (10 ^ (natDecimalAux ((n + 1) / 10) ((n + 1) / 10) []).length * 10)
              + ((n + 1) / 10 * 10 + (n + 1) % 10) := by ring
        _ = a * 10 ^ ((natDecimalAux ((n + 1) / 10) ((n + 1) / 10) []).length + (0 + 1))
              + (n + 1) := by rw [h10, pow_succ]

theorem natDecimal_ne_nil (n : Nat) : natDecimal n ≠ [] := by
  unfold natDecimal
  split
  · simp
  · rename_i h
    rw [natDecimal_step n h]
    simp

theorem natDecimal_digits (n : Nat) : ∀ c ∈ natDecimal n, c.isDigit = true := by
  unfold natDecimal
  split
  · intro c hc
    simp only [List.mem_singleton] at hc
    subst hc
    decide
  · exact natDecimalAux_digits n

/-- The rendering/parsing round trip on digit values. -/
theorem decValue_natDecimal (n : Nat) : decValue (natDecimal n) = n := by
  unfold natDecimal decValue
  split
  · rename_i h
    subst h
    decide
  · have := natDecimalAux_foldl n 0
    simpa using this

theorem takeWhile_append_of_all (p : Char → Bool) (xs ys : List Char)
    (h : ∀ c ∈ xs, p c = true) :
    (xs ++ ys).takeWhile p = xs ++ ys.takeWhile p := by
  induction xs with
  | nil => simp
  | cons c tl ih =>
    have hc : p c = true := h c (List.mem_cons_self c tl)
    simp only [List.cons_append, List.takeWhile_cons_of_pos hc, List.cons.injEq, true_and]
    exact ih fun d hd => h d (List.mem_cons_of_mem c hd)

theorem dropWhile_append_of_all (p : Char → Bool) (xs ys : List Char)
    (h : ∀ c ∈ xs, p c = true) :
    (xs ++ ys).dropWhile p = ys.dropWhile p := by
  induction xs with
  | nil => simp
  | cons c tl ih =>
    have hc : p c = true := h c (List.mem_cons_self c tl)
    simp only [List.cons_append, List.dropWhile_cons_of_pos hc]
    exact ih fun d hd => h d (List.mem_cons_of_mem c hd)

/-- Folding further digits onto an accumulated value never decreases
it. -/
theorem foldl_digits_le (l : List Char) : ∀ a : Nat,
    a ≤ l.foldl (fun a c => a * 10 + (c.toNat - 48)) a := by
  induction l with
  | nil => intro a; simp
  | cons c tl ih =>
    intro a
    simp only [List.foldl_cons]
    exact Nat.le_trans (by omega) (ih (a * 10 + (c.toNat - 48)))

theorem decValue_prefix_le (ds t : List Char) :
    decValue ds ≤ decValue (ds ++ t) := by
  unfold decValue
  rw [List.foldl_append]
  exact foldl_digits_le t _

/-- Each single step yields at most one value per candidate. -/
theorem union_tryMatch_length_le (u : UnionSelector) (v : Value) :
    (u.tryMatch v).length ≤ 1 := by
  cases u with
  | name s =>
    show (s.tryMatch v).length ≤ 1
    unfold NameSelector.tryMatch
    split
    · split <;> simp
    · simp
  | index s =>
    show (s.tryMatch v).length ≤ 1
    unfold IndexSelector.tryMatch
    split
    · split <;> simp
    · simp

/-- C1: for every selector chain built from name and index steps (the
only constructors of `UnionSelector`, hence everything `Selector::parse`
or `Selector::from_vec` can produce) and for every input value, the
stream `Selector::try_match` yields contains zero or one element —
never two or more. -/
theorem selector_stream_at_most_one (sel : Selector) (v : Value) :
    (sel.tryMatch v).length ≤ 1 := by
  induction sel generalizing v with
  | nil => simp [Selector.tryMatch]
  | node s next ih =>
    have hu := union_tryMatch_length_le s v
    rcases hm : s.tryMatch v with _ | ⟨x, tl⟩
    · simp [Selector.tryMatch, hm]
    · rw [hm] at hu
      simp only [List.length_cons] at hu
      have htl : tl = [] := by
        cases tl with
        | nil => rfl
        | cons y ys => simp at hu
      subst htl
      simp only [Selector.tryMatch, hm, List.flatMap_cons, List.flatMap_nil,
        List.append_nil]
      exact ih x

/-- C2: `NameSelector(n).try_match` yields exactly the child bound to
`n` when the value is a `Map` containing `n` and the empty stream
otherwise; `IndexSelector(i).try_match` yields exactly the element at
`i` when the value is a `List` with `i` in range and the empty stream
otherwise.  No error is possible: the stream's item type is `Value`
itself. -/
theorem step_tryMatch_characterization :
    (∀ (n : String) (m : List (String × Value)) (x : Value),
       m.lookup n = some x → NameSelector.tryMatch ⟨n⟩ (.map m) = [x]) ∧
    (∀ (n : String) (m : List (String × Value)),
       m.lookup n = none → NameSelector.tryMatch ⟨n⟩ (.map m) = []) ∧
    (∀ (n : String) (v : Value),
       (∀ m, v ≠ .map m) → NameSelector.tryMatch ⟨n⟩ v = []) ∧
    (∀ (i : Nat) (ls : List Value) (h : i < ls.length),
       IndexSelector.tryMatch ⟨i⟩ (.list ls) = [ls.get ⟨i, h⟩]) ∧
    (∀ (i : Nat) (ls : List Value),
       ls.length ≤ i → IndexSelector.tryMatch ⟨i⟩ (.list ls) = []) ∧
    (∀ (i : Nat) (v : Value),
       (∀ ls, v ≠ .list ls) → IndexSelector.tryMatch ⟨i⟩ v = []) := by
  refine ⟨?_, ?_, ?_, ?_, ?_, ?_⟩
  · intro n m x h
    simp [NameSelector.tryMatch, h]
  · intro n m h
    simp [NameSelector.tryMatch, h]
  · intro n v h
    cases v
    case map m => exact absurd rfl (h m)
    all_goals rfl
  · intro i ls h
    simp [IndexSelector.tryMatch, h]
  · intro i ls h
    have hn : ¬ i < ls.length := by omega
    simp [IndexSelector.tryMatch, hn]
  · intro i v h
    cases v
    case list ls => exact absurd rfl (h ls)
    all_goals rfl

/-- Witness for `step_tryMatch_characterization` at concrete inputs. -/
theorem step_tryMatch_characterization_witness :
    NameSelector.tryMatch ⟨"hoge"⟩ (.map [("hoge", .int 10)]) = [.int 10] ∧
    NameSelector.tryMatch ⟨"fuga"⟩ (.map [("hoge", .int 10)]) = [] ∧
    NameSelector.tryMatch ⟨"hoge"⟩ .unit = [] ∧
    IndexSelector.tryMatch ⟨1⟩ (.list [.int 1, .int 2, .int 3]) = [.int 2] ∧
    IndexSelector.tryMatch ⟨10⟩ (.list [.int 1, .int 2, .int 3]) = [] ∧
    IndexSelector.tryMatch ⟨1⟩ .unit = [] :=
  ⟨step_tryMatch_characterization.1 "hoge" [("hoge", .int 10)] (.int 10) rfl,
   step_tryMatch_characterization.2.1 "fuga" [("hoge", .int 10)] rfl,
   step_tryMatch_characterization.2.2.1 "hoge" .unit (fun m => by simp),
   step_tryMatch_characterization.2.2.2.1 1 [.int 1, .int 2, .int 3] (by decide),
   step_tryMatch_characterization.2.2.2.2.1 10 [.int 1, .int 2, .int 3] (by decide),
   step_tryMatch_characterization.2.2.2.2.2 1 .unit (fun ls => by simp)⟩

/-- C9: the selector chain [field "hoge", index 0] yields exactly the
single result 10 on the map containing "hoge" bound to the list [10],
and the empty stream (no error) on the empty map. -/
theorem selector_chain_concrete_example :
    (Selector.from_vec [.name ⟨"hoge"⟩, .index ⟨0⟩]).tryMatch
        (.map [("hoge", .list [.int 10])]) = [.int 10] ∧
    (Selector.from_vec [.name ⟨"hoge"⟩, .index ⟨0⟩]).tryMatch (.map []) = [] :=
  ⟨rfl, rfl⟩

/-- C10: selector parsing and evaluation never panic.  The
panic-explicit models (`none` standing for a panic) of
`NameSelector::parse` — whose closure unwraps the first byte of the
`alphanumeric1` match — and of `IndexSelector::try_match` — whose
direct indexing sits under the `self.0 < ls.len()` guard — never
return the panic marker and agree with the plain embeddings on every
input. -/
theorem selector_no_panic :
    (∀ input : List Char,
       NameSelector.parseP input = some (NameSelector.parse input)) ∧
    (∀ (s : IndexSelector) (v : Value),
       IndexSelector.tryMatchP s v = some (s.tryMatch v)) := by
  constructor
  · intro input
    unfold NameSelector.parseP NameSelector.parse
    rcases h : input.takeWhile Char.isAlphanum with _ | ⟨c, tl⟩
    · simp [h]
    · by_cases hca : c.isAlpha <;> simp [h, hca]
  · intro s v
    cases v
    case list ls =>
      by_cases h : s.idx < ls.length
      · simp only [IndexSelector.tryMatchP, IndexSelector.tryMatch, if_pos h,
          dif_pos h, List.getElem?_eq_getElem h]
        simp
      · simp only [IndexSelector.tryMatchP, IndexSelector.tryMatch, if_neg h,
          dif_neg h]
    all_goals rfl

/-- A matcher step succeeds with `x` exactly when the corresponding
selector step yields the one-element stream `[x]`. -/
theorem matchStep_ok_iff (s : UnionSelector) (v x : Value) :
    matchStep s v = .ok x ↔ s.tryMatch v = [x] := by
  cases s with
  | name n =>
    cases v
    case map m =>
      cases h : m.lookup n.name <;>
        simp [matchStep, UnionSelector.tryMatch, NameSelector.tryMatch, h]
    all_goals
      simp [matchStep, UnionSelector.tryMatch, NameSelector.tryMatch]
  | index i =>
    cases v
    case list ls =>
      by_cases h : i.idx < ls.length <;>
        simp [matchStep, UnionSelector.tryMatch, IndexSelector.tryMatch, h]
    all_goals
      simp [matchStep, UnionSelector.tryMatch, IndexSelector.tryMatch]

/-- A matcher step fails exactly when the corresponding selector step
yields the empty stream. -/
theorem matchStep_error_iff (s : UnionSelector) (v : Value) :
    (∃ e, matchStep s v = .error e) ↔ s.tryMatch v = [] := by
  cases s with
  | name n =>
    cases v
    case map m =>
      cases h : m.lookup n.name <;>
        simp [matchStep, UnionSelector.tryMatch, NameSelector.tryMatch, h]
    all_goals
      simp [matchStep, UnionSelector.tryMatch, NameSelector.tryMatch]
  | index i =>
    cases v
    case list ls =>
      by_cases h : i.idx < ls.length <;>
        simp [matchStep, UnionSelector.tryMatch, IndexSelector.tryMatch, h]
    all_goals
      simp [matchStep, UnionSelector.tryMatch, IndexSelector.tryMatch]

/-- C3 (matcher evaluator modelled from the spec, its source file not
being under src/): matcher-chain evaluation folds the steps
left-to-right over a single current value and short-circuits on the
first error; a name step on a non-Map fails with "value is not a map",
a name step on a Map lacking the key with "map does not contain key
'name'", an index step on a non-List with "value is not a list", an
out-of-range index step with "index out of range: n"; success yields
the single final value. -/
theorem matcher_chain_characterization :
    (∀ (n : NameSelector) (rest : List UnionSelector) (v : Value),
       (∀ m, v ≠ .map m) →
       matcherRun (.name n :: rest) v = .error "value is not a map") ∧
    (∀ (n : NameSelector) (rest : List UnionSelector)
       (m : List (String × Value)),
       m.lookup n.name = none →
       matcherRun (.name n :: rest) (.map m) =
         .error ("map does not contain key \x27" ++ n.name ++ "\x27")) ∧
    (∀ (i : IndexSelector) (rest : List UnionSelector) (v : Value),
       (∀ ls, v ≠ .list ls) →
       matcherRun (.index i :: rest) v = .error "value is not a list") ∧
    (∀ (i : IndexSelector) (rest : List UnionSelector) (ls : List Value),
       ls.length ≤ i.idx →
       matcherRun (.index i :: rest) (.list ls) =
         .error ("index out of range: " ++ Nat.repr i.idx)) ∧
    (∀ (s : UnionSelector) (rest : List UnionSelector) (v x : Value),
       matchStep s v = .ok x → matcherRun (s :: rest) v = matcherRun rest x) ∧
    (∀ v : Value, matcherRun [] v = .ok v) := by
  refine ⟨?_, ?_, ?_, ?_, ?_, ?_⟩
  · intro n rest v h
    have hstep : matchStep (.name n) v = .error "value is not a map" := by
      cases v
      case map m => exact absurd rfl (h m)
      all_goals rfl
    simp [matcherRun, hstep]
  · intro n rest m h
    have hstep : matchStep (.name n) (.map m) =
        .error ("map does not contain key \x27" ++ n.name ++ "\x27") := by
      simp [matchStep, h]
    simp [matcherRun, hstep]
  · intro i rest v h
    have hstep : matchStep (.index i) v = .error "value is not a list" := by
      cases v
      case list ls => exact absurd rfl (h ls)
      all_goals rfl
    simp [matcherRun, hstep]
  · intro i rest ls h
    have hn : ¬ i.idx < ls.length := by omega
    have hstep : matchStep (.index i) (.list ls) =
        .error ("index out of range: " ++ Nat.repr i.idx) := by
      simp [matchStep, hn]
    simp [matcherRun, hstep]
  · intro s rest v x h
    simp [matcherRun, h]
  · intro v
    rfl

/-- Witness for `matcher_chain_characterization` at concrete inputs. -/
theorem matcher_chain_characterization_witness :
    matcherRun [.name ⟨"a"⟩] .unit = .error "value is not a map" ∧
    matcherRun [.name ⟨"c"⟩] (.map [("hoge", .int 1)]) =
      .error "map does not contain key \x27c\x27" ∧
    matcherRun [.index ⟨0⟩] .unit = .error "value is not a list" ∧
    matcherRun [.index ⟨10⟩] (.list [.int 1, .int 2, .int 3]) =
      .error ("index out of range: " ++ Nat.repr 10) ∧
    matcherRun [.name ⟨"hoge"⟩] (.map [("hoge", .int 5)]) = .ok (.int 5) ∧
    matcherRun [] .unit = .ok .unit :=
  ⟨matcher_chain_characterization.1 ⟨"a"⟩ [] .unit (fun m => by simp),
   matcher_chain_characterization.2.1 ⟨"c"⟩ [] [("hoge", .int 1)] rfl,
   matcher_chain_characterization.2.2.1 ⟨0⟩ [] .unit (fun ls => by simp),
   matcher_chain_characterization.2.2.2.1 ⟨10⟩ [] [.int 1, .int 2, .int 3]
     (by decide),
   matcher_chain_characterization.2.2.2.2.1 (.name ⟨"hoge"⟩) []
     (.map [("hoge", .int 5)]) (.int 5) rfl,
   matcher_chain_characterization.2.2.2.2.2 .unit⟩

/-- C4 (matcher evaluator modelled from the spec, its source file not
being under src/): for every step sequence and every input value, the
matcher chain succeeds with `x` exactly when the selector chain built
from the same steps yields the stream `[x]`, and the matcher chain
errors exactly when that selector chain yields the empty stream. -/
theorem matcher_selector_equivalence (steps : List UnionSelector) (v : Value) :
    (∀ x, matcherRun steps v = .ok x ↔
       (Selector.from_vec steps).tryMatch v = [x]) ∧
    ((∃ e, matcherRun steps v = .error e) ↔
       (Selector.from_vec steps).tryMatch v = []) := by
  induction steps generalizing v with
  | nil =>
    constructor
    · intro x
      simp [matcherRun, Selector.from_vec, Selector.tryMatch]
    · simp [matcherRun, Selector.from_vec, Selector.tryMatch]
  | cons s rest ih =>
    have hfv : Selector.from_vec (s :: rest) = .node s (Selector.from_vec rest) :=
      rfl
    rw [hfv]
    cases hs : matchStep s v with
    | ok w =>
      have hsel : s.tryMatch v = [w] := (matchStep_ok_iff s v w).mp hs
      have hrun : matcherRun (s :: rest) v = matcherRun rest w := by
        simp [matcherRun, hs]
      have htm : (Selector.node s (Selector.from_vec rest)).tryMatch v =
          (Selector.from_vec rest).tryMatch w := by
        simp [Selector.tryMatch, hsel]
      constructor
      · intro x
        rw [hrun, htm]
        exact (ih w).1 x
      · rw [hrun, htm]
        exact (ih w).2
    | error e =>
      have hsel : s.tryMatch v = [] := (matchStep_error_iff s v).mp ⟨e, hs⟩
      have hrun : matcherRun (s :: rest) v = .error e := by
        simp [matcherRun, hs]
      have htm : (Selector.node s (Selector.from_vec rest)).tryMatch v = [] := by
        simp [Selector.tryMatch, hsel]
      constructor
      · intro x
        rw [hrun, htm]
        simp
      · rw [hrun, htm]
        simp

/-- Witness for `matcher_selector_equivalence` at concrete inputs: a
successful chain and an erroring chain. -/
theorem matcher_selector_equivalence_witness :
    (Selector.from_vec [UnionSelector.name ⟨"hoge"⟩,
        UnionSelector.index ⟨0⟩]).tryMatch
      (.map [("hoge", .list [.int 10])]) = [.int 10] ∧
    (Selector.from_vec [UnionSelector.name ⟨"hoge"⟩]).tryMatch (.map []) = [] :=
  ⟨((matcher_selector_equivalence [.name ⟨"hoge"⟩, .index ⟨0⟩]
       (.map [("hoge", .list [.int 10])])).1 (.int 10)).mp rfl,
   (matcher_selector_equivalence [.name ⟨"hoge"⟩] (.map [])).2.mp ⟨_, rfl⟩⟩

/-- The separator loop only ever appends to its accumulator. -/
theorem selLoop_acc_prefix (fuel : Nat) :
    ∀ (cur : List Char) (acc : List UnionSelector),
    ∃ ts, (selLoop fuel cur acc).2 = acc ++ ts := by
  induction fuel with
  | zero => intro cur acc; exact ⟨[], by simp [selLoop]⟩
  | succ f ih =>
    intro cur acc
    cases cur with
    | nil => exact ⟨[], by simp [selLoop]⟩
    | cons c tl =>
      by_cases hc : c = '.'
      · simp only [selLoop, if_pos hc]
        cases hp : UnionSelector.parse tl with
        | ok rs =>
          obtain ⟨rest, s⟩ := rs
          obtain ⟨ts, hts⟩ := ih rest (acc ++ [s])
          refine ⟨[s] ++ ts, ?_⟩
          show (selLoop f rest (acc ++ [s])).2 = acc ++ ([s] ++ ts)
          rw [hts, List.append_assoc]
        | error e =>
          exact ⟨[], by simp⟩
      · simp only [selLoop, if_neg hc]
        exact ⟨[], by simp⟩

/-- Wherever the separator loop stops (with sufficient fuel), no
further separator-plus-step could have been consumed. -/
theorem selLoop_stop (fuel : Nat) :
    ∀ (cur : List Char) (acc : List UnionSelector), cur.length ≤ fuel →
    ∀ tl, (selLoop fuel cur acc).1 = '.' :: tl →
    ∀ (r : List Char) (s : UnionSelector), UnionSelector.parse tl ≠ .ok (r, s) := by
  induction fuel with
  | zero =>
    intro cur acc hf tl hrem
    have hc : cur = [] := List.length_eq_zero.mp (Nat.le_zero.mp hf)
    subst hc
    simp [selLoop] at hrem
  | succ f ih =>
    intro cur acc hf tl hrem
    cases cur with
    | nil => simp [selLoop] at hrem
    | cons c tl2 =>
      by_cases hc : c = '.'
      · subst hc
        rw [show selLoop (f + 1) ('.' :: tl2) acc =
              match UnionSelector.parse tl2 with
              | .ok (rest, s) => selLoop f rest (acc ++ [s])
              | .error _ => ('.' :: tl2, acc) from rfl] at hrem
        cases hp : UnionSelector.parse tl2 with
        | ok rs =>
          obtain ⟨rest, s⟩ := rs
          rw [hp] at hrem
          have hlt := unionSel_parse_length_lt hp
          simp only [List.length_cons] at hf hlt
          exact ih rest (acc ++ [s]) (by omega) tl hrem
        | error e =>
          rw [hp] at hrem
          have hrem2 : ('.' :: tl2 : List Char) = '.' :: tl := hrem
          simp only [List.cons.injEq, true_and] at hrem2
          subst hrem2
          intro r s hcontra
          rw [hp] at hcontra
          exact absurd hcontra (by simp)
      · simp only [selLoop, if_neg hc] at hrem
        simp only [List.cons.injEq] at hrem
        exact absurd hrem.1 hc

/-- C7: a chain of zero steps is never produced by the parser: chain
parsing demands at least one step, so the empty input is always a parse
error, and every successful parse yields a non-`Nil` chain. -/
theorem selector_parse_empty_fails :
    (∃ e, Selector.parse [] = .error e) ∧
    (∀ (input rem : List Char) (sel : Selector),
       Selector.parse input = .ok (rem, sel) → sel ≠ .nil) := by
  constructor
  · exact ⟨"Tag", rfl⟩
  · intro input rem sel h
    unfold Selector.parse at h
    split at h
    case h_1 => exact absurd h (by simp)
    case h_2 rest s heq =>
      simp only [Except.ok.injEq, Prod.mk.injEq] at h
      obtain ⟨-, hsel⟩ := h
      obtain ⟨ts, hts⟩ := selLoop_acc_prefix rest.length rest [s]
      rw [hts] at hsel
      rw [← hsel]
      simp [Selector.from_vec]

/-- Witness for `selector_parse_empty_fails`: a concrete successful
parse whose chain is non-`Nil`. -/
theorem selector_parse_empty_fails_witness :
    Selector.parse ['a'] = .ok ([], Selector.from_vec [.name ⟨"a"⟩]) ∧
    Selector.from_vec [.name ⟨"a"⟩] ≠ .nil :=
  ⟨rfl,
   selector_parse_empty_fails.2 ['a'] [] (Selector.from_vec [.name ⟨"a"⟩]) rfl⟩

/-- C8: chain parsing never fails on trailing garbage: it succeeds
whenever the first step parses, it stops at the first point where no
further separator-plus-step can be consumed and hands the unconsumed
remainder back, and parsing "hoge." succeeds with remainder ".". -/
theorem selector_parse_trailing_garbage :
    (∀ (input rest : List Char) (s : UnionSelector),
       UnionSelector.parse input = .ok (rest, s) →
       ∃ rem sel, Selector.parse input = .ok (rem, sel)) ∧
    (∀ (input rem : List Char) (sel : Selector),
       Selector.parse input = .ok (rem, sel) →
       ∀ tl, rem = '.' :: tl →
       ∀ (r : List Char) (u : UnionSelector),
         UnionSelector.parse tl ≠ .ok (r, u)) ∧
    Selector.parse "hoge.".toList =
      .ok (['.'], Selector.from_vec [.name ⟨"hoge"⟩]) := by
  refine ⟨?_, ?_, rfl⟩
  · intro input rest s h
    unfold Selector.parse
    rw [h]
    exact ⟨_, _, rfl⟩
  · intro input rem sel h tl hrem r u
    unfold Selector.parse at h
    split at h
    case h_1 => exact absurd h (by simp)
    case h_2 rest s heq =>
      simp only [Except.ok.injEq, Prod.mk.injEq] at h
      obtain ⟨hrem2, -⟩ := h
      refine selLoop_stop rest.length rest [s] (Nat.le_refl _) tl ?_ r u
      rw [hrem2, hrem]

/-- Witness for `selector_parse_trailing_garbage`: a concrete
first-step success, and the stop condition at the remainder "." of
parsing "hoge.". -/
theorem selector_parse_trailing_garbage_witness :
    (∃ rem sel, Selector.parse ['b'] = .ok (rem, sel)) ∧
    UnionSelector.parse [] ≠ .ok ([], .name ⟨"x"⟩) :=
  ⟨selector_parse_trailing_garbage.1 ['b'] [] (.name ⟨"b"⟩) rfl,
   selector_parse_trailing_garbage.2.1 "hoge.".toList ['.']
     (Selector.from_vec [.name ⟨"hoge"⟩]) rfl [] rfl [] (.name ⟨"x"⟩)⟩

/-- C5 counterexample: an input beginning with a digit is rejected, but
not with the message the claim quotes.  The surfaced error is nom's
MapRes error kind, and even the source-level closure message — "name of
field must starts with an alphabet." — differs from the claimed "field
name must start with a letter". -/
theorem name_parse_digit_message_counterexample :
    NameSelector.parse "1a".toList = .error "MapRes" ∧
    "MapRes" ≠ "field name must start with a letter" ∧
    "name of field must starts with an alphabet." ≠
      "field name must start with a letter" :=
  ⟨rfl, by decide, by decide⟩

/-- C5 (amended): name-step parsing consumes the maximal run of
alphanumeric ASCII characters; it succeeds exactly when that run is
non-empty and its first character is an ASCII letter; and it rejects
every input beginning with a digit, signalling a parse error (nom's
MapRes kind — the closure's source message "name of field must starts
with an alphabet." is discarded by map_res and is in any case not the
text the claim quotes). -/
theorem name_parse_characterization :
    (∀ (input rest : List Char) (s : NameSelector),
       NameSelector.parse input = .ok (rest, s) →
       rest = input.dropWhile Char.isAlphanum ∧
       s.name = (input.takeWhile Char.isAlphanum).asString) ∧
    (∀ input : List Char,
       (∃ rest s, NameSelector.parse input = .ok (rest, s)) ↔
       ∃ c tl, input.takeWhile Char.isAlphanum = c :: tl ∧ c.isAlpha = true) ∧
    (∀ (c : Char) (tl : List Char), c.isDigit = true →
       NameSelector.parse (c :: tl) = .error "MapRes") := by
  refine ⟨?_, ?_, ?_⟩
  · intro input rest s h
    unfold NameSelector.parse at h
    split at h
    case h_1 => exact absurd h (by simp)
    case h_2 c tl hrun =>
      split at h
      · simp only [Except.ok.injEq, Prod.mk.injEq] at h
        obtain ⟨h1, h2⟩ := h
        refine ⟨h1.symm, ?_⟩
        rw [← h2, hrun]
      · exact absurd h (by simp)
  · intro input
    constructor
    · rintro ⟨rest, s, h⟩
      unfold NameSelector.parse at h
      split at h
      case h_1 => exact absurd h (by simp)
      case h_2 c tl hrun =>
        split at h
        case isTrue hca => exact ⟨c, tl, hrun, hca⟩
        case isFalse => exact absurd h (by simp)
    · rintro ⟨c, tl, hrun, hca⟩
      unfold NameSelector.parse
      rw [hrun]
      simp only [hca, if_true]
      exact ⟨_, _, rfl⟩
  · intro c tl hcd
    have hna : c.isAlpha = false := isDigit_not_isAlpha hcd
    have hca : c.isAlphanum = true := isDigit_isAlphanum hcd
    unfold NameSelector.parse
    rw [List.takeWhile_cons_of_pos hca]
    simp [hna]

/-- Witness for `name_parse_characterization` at concrete inputs. -/
theorem name_parse_characterization_witness :
    (['!'] = "hi!".toList.dropWhile Char.isAlphanum ∧
     "hi" = ("hi!".toList.takeWhile Char.isAlphanum).asString) ∧
    NameSelector.parse ['1', 'a'] = .error "MapRes" :=
  ⟨name_parse_characterization.1 "hi!".toList ['!'] ⟨"hi"⟩ rfl,
   name_parse_characterization.2.2 '1' ['a'] (by decide)⟩

/-- Unfolding of `IndexSelector::parse` past the literal `[`. -/
theorem IndexSelector.parse_bracket (afterOpen : List Char) :
    IndexSelector.parse ('[' :: afterOpen) =
      match afterOpen.takeWhile Char.isDigit with
      | [] => .error "Digit"
      | c :: ds =>
        if decValue (c :: ds) < 2 ^ 64 then
          match afterOpen.dropWhile Char.isDigit with
          | ']' :: afterClose => .ok (afterClose, ⟨decValue (c :: ds)⟩)
          | _ => .error "Tag"
        else .error "MapRes" := rfl

/-- C6: index-step parsing round-trips — for every `n` representable in
the 64-bit unsigned target width, parsing "[" ++ str(n) ++ "]" yields
`IndexStep(n)` with empty remainder — and a digit run whose value
overflows the target width is a parse error, whatever follows it. -/
theorem index_parse_roundtrip :
    (∀ n : Nat, n < 2 ^ 64 →
       IndexSelector.parse ('[' :: (natDecimal n ++ [']'])) = .ok ([], ⟨n⟩)) ∧
    (∀ ds rest : List Char, ds ≠ [] → (∀ c ∈ ds, c.isDigit = true) →
       2 ^ 64 ≤ decValue ds →
       IndexSelector.parse ('[' :: (ds ++ rest)) = .error "MapRes") := by
  constructor
  · intro n hn
    have hdig := natDecimal_digits n
    have htake : (natDecimal n ++ [']']).takeWhile Char.isDigit = natDecimal n := by
      rw [takeWhile_append_of_all _ _ _ hdig]
      simp [List.takeWhile]
    have hdrop : (natDecimal n ++ [']']).dropWhile Char.isDigit = [']'] := by
      rw [dropWhile_append_of_all _ _ _ hdig]
      simp [List.dropWhile]
    obtain ⟨c, tl, hD⟩ : ∃ c tl, natDecimal n = c :: tl := by
      cases h : natDecimal n with
      | nil => exact absurd h (natDecimal_ne_nil n)
      | cons c tl => exact ⟨c, tl, rfl⟩
    have hval : decValue (c :: tl) = n := by rw [← hD, decValue_natDecimal]
    rw [IndexSelector.parse_bracket, htake, hdrop, hD]
    simp [hval, hn]
    exact hn
  · intro ds rest hne hdig hov
    obtain ⟨c, tl, hD⟩ : ∃ c tl, ds = c :: tl := by
      cases h : ds with
      | nil => exact absurd h hne
      | cons c tl => exact ⟨c, tl, rfl⟩
    have htake : (ds ++ rest).takeWhile Char.isDigit =
        ds ++ rest.takeWhile Char.isDigit :=
      takeWhile_append_of_all _ _ _ hdig
    have hval : ¬ decValue (c :: (tl ++ rest.takeWhile Char.isDigit)) < 2 ^ 64 := by
      have hle := decValue_prefix_le (c :: tl) (rest.takeWhile Char.isDigit)
      rw [hD] at hov
      simp only [List.cons_append] at hle
      omega
    rw [IndexSelector.parse_bracket, htake, hD]
    simp only [List.cons_append]
    simp [hval]
    intro hcon
    exact absurd hcon hval

/-- Witness for `index_parse_roundtrip`: the round trip at 5 and the
overflow error at 18446744073709551616 = 2^64. -/
theorem index_parse_roundtrip_witness :
    IndexSelector.parse ('[' :: (natDecimal 5 ++ [']'])) = .ok ([], ⟨5⟩) ∧
    IndexSelector.parse ('[' :: ("18446744073709551616".toList ++ [']'])) =
      .error "MapRes" :=
  ⟨index_parse_roundtrip.1 5 (by decide),
   index_parse_roundtrip.2 "18446744073709551616".toList [']'] (by decide)
     (by decide) (by decide)⟩
